import Mathlib

/-!
Verification of the losslessCompression repository: an LZ77-style codec
(`Encoder.py` / `Decoder.py`) with Elias integer codes (`Elias.py`) and a
standalone Huffman coder (`Huffman.py`).

Byte buffers are modelled as `List Nat` (each element a byte value), bit
streams as `List Nat` (each element 0 or 1).  Python list indexing that can
raise `IndexError`, and functions that can raise `ValueError`, are modelled
with `Option`.  Python slices, which silently truncate, are modelled with
`List.take`/`List.drop`, which truncate the same way.  Loops are modelled by
fuel-based structural recursion; in each case the fuel is chosen so that it
is never exhausted before the Python loop's own exit condition fires, and
the fuel-exhausted base case coincides with the loop's exit action.
-/

/-! ## Bit-level helpers (Encoder.py `bits_to_bytes`, Decoder.py `bytes_to_bits`, `read_byte`) -/

/-- Big-endian value of a bit list: `int("".join(map(str, bits)), 2)`
(and the `byte_val = (byte_val << 1) | bit` accumulation loops). -/
def fromBits (bs : List Nat) : Nat :=
  bs.foldl (fun a b => 2 * a + b) 0

/-- The 8 bits of a byte, most significant first:
`for bit_pos in range(7, -1, -1): bits.append((byte_val >> bit_pos) & 1)`. -/
def byteBits (b : Nat) : List Nat :=
  [b / 128 % 2, b / 64 % 2, b / 32 % 2, b / 16 % 2, b / 8 % 2, b / 4 % 2, b / 2 % 2, b % 2]

/-! ## Elias.py -/

/-- Fuel-based helper computing `bin(n)[2:]` as a list of bits (empty for `n = 0`).
The fuel is the starting `n` itself; since `n` at least halves each step the
fuel is never exhausted while `n > 0`. -/
def natBitsAux : Nat → Nat → List Nat
  | 0, _ => []
  | fuel + 1, n => if n = 0 then [] else natBitsAux fuel (n / 2) ++ [n % 2]

/-- Big-endian binary digits of `n`, i.e. Python's `bin(n)[2:]` (for `n ≥ 1`). -/
def natBits (n : Nat) : List Nat :=
  natBitsAux n n

/-- Elias gamma code (`Elias.gamma_encode`): `(len(bin) - 1)` zero bits followed
by the binary digits.  Defined for `n ≥ 1`; the `n <= 0` `ValueError` guard is
modelled by `delta_encode_checked` below. -/
def gamma_encode (n : Nat) : List Nat :=
  List.replicate ((natBits n).length - 1) 0 ++ natBits n

/-- Elias delta code (`Elias.delta_encode`): gamma code of the bit-length,
followed by the binary digits without their leading 1. -/
def delta_encode (n : Nat) : List Nat :=
  gamma_encode (natBits n).length ++ (natBits n).tail

/-- The `ValueError` guard of `Elias.delta_encode`: encoding any `n ≤ 0`
raises (`none`); otherwise the code of `n` is produced. -/
def delta_encode_checked (n : Int) : Option (List Nat) :=
  if n ≤ 0 then none else some (delta_encode n.toNat)

/-- Count of leading zero bits of a stream, `none` when the scan
`while bit_stream[index + zero_count] == 0` runs past the end of the list
(Python `IndexError`). -/
def leadZeros : List Nat → Option Nat
  | [] => none
  | b :: rest => if b = 0 then (leadZeros rest).map (· + 1) else some 0

/-- `Elias.delta_decode_stream`.  Python list slices truncate silently, so the
reads of `bits_for_length` and `remaining_bits` are `drop`/`take`; only the
leading-zero scan performs raising indexing. -/
def delta_decode_stream (bits : List Nat) (index : Nat) : Option (Nat × Nat) :=
  match leadZeros (bits.drop index) with
  | none => none
  | some z =>
    let i1 := index + z
    let bitsForLength := (bits.drop i1).take (z + 1)
    let lengthVal := fromBits bitsForLength
    let i2 := i1 + bitsForLength.length
    if lengthVal = 1 then some (1, i2)
    else
      let remaining := (bits.drop i2).take (lengthVal - 1)
      some (fromBits (1 :: remaining), i2 + (lengthVal - 1))

/-! ## Encoder.py -/

/-- `Encoder.WINDOW_SIZE`. -/
def WINDOW_SIZE : Nat := 4096

/-- `Encoder.LOOKAHEAD_SIZE`. -/
def LOOKAHEAD_SIZE : Nat := 1000

/-- `Encoder.MIN_MATCH_LENGTH`. -/
def MIN_MATCH_LENGTH : Nat := 3

/-- The inner `while` of `Encoder.find_longest_match`, counting how many
consecutive bytes match:
`while (i + k < lookahead_end and data[s + k] == data[i + k] and k < LOOKAHEAD_SIZE)`.
Fuel `LOOKAHEAD_SIZE + 1` is never exhausted because the loop stops at
`k = LOOKAHEAD_SIZE` at the latest. -/
def matchLenAux : Nat → List Nat → Nat → Nat → Nat → Nat → Nat
  | 0, _, _, _, _, k => k
  | fuel + 1, data, s, i, lookEnd, k =>
    if i + k < lookEnd ∧ data.getD (s + k) 0 = data.getD (i + k) 0 ∧ k < LOOKAHEAD_SIZE
    then matchLenAux fuel data s i lookEnd (k + 1)
    else k

/-- Length of the match starting at window position `s` against position `i`. -/
def matchLenAt (data : List Nat) (i s : Nat) : Nat :=
  matchLenAux (LOOKAHEAD_SIZE + 1) data s i (min data.length (i + LOOKAHEAD_SIZE)) 0

/-- One step of the candidate scan of `Encoder.find_longest_match`:
`if match_length > best_length: best_length, best_offset = match_length, i - search_pos`. -/
def flmStep (data : List Nat) (i : Nat) (acc : Nat × Nat) (s : Nat) : Nat × Nat :=
  let ml := matchLenAt data i s
  if acc.2 < ml then (i - s, ml) else acc

/-- `Encoder.find_longest_match`: scan `search_pos` over
`range(window_start, i)` (farthest candidate first), returning
`(best_offset, best_length)`, `(0, 0)` when nothing matched. -/
def find_longest_match (data : List Nat) (i : Nat) : Nat × Nat :=
  let ws := i - WINDOW_SIZE
  (List.range' ws (i - ws)).foldl (flmStep data i) (0, 0)

/-- `Encoder.encode`: one token starting at position `i`, returning
`(j, advance_by, bits)`.  A match of length `l ≥ MIN_MATCH_LENGTH` emits
`delta(j) ++ delta(l) ++` the 8 bits of the byte after the match (a 0 byte
when the match ends the buffer, advancing by `l` instead of `l + 1`); a
literal emits `delta(1) ++ delta(1) ++` the 8 bits of the byte. -/
def encode (data : List Nat) (i : Nat) : Nat × Nat × List Nat :=
  if data.length ≤ i then (0, 0, [])
  else
    let jl := find_longest_match data i
    if MIN_MATCH_LENGTH ≤ jl.2 then
      let base := delta_encode jl.1 ++ delta_encode jl.2
      if i + jl.2 < data.length then
        (jl.1, jl.2 + 1, base ++ byteBits (data.getD (i + jl.2) 0))
      else
        (jl.1, jl.2, base ++ byteBits 0)
    else
      (0, 1, delta_encode 1 ++ delta_encode 1 ++ byteBits (data.getD i 0))

/-- The tokenization loop of `Encoder.encoder`
(`while i < len(data): j, l, bits = encode(data, i); all_tokens.append(bits); i += l`).
Fuel `data.length` is never exhausted because every token advances `i` by at
least 1 (`encode_advance_pos` below). -/
def encodeTokensAux : Nat → List Nat → Nat → List (List Nat)
  | 0, _, _ => []
  | fuel + 1, data, i =>
    if data.length ≤ i then []
    else
      let t := encode data i
      t.2.2 :: encodeTokensAux fuel data (i + t.2.1)

/-- All token bit lists of a buffer, in order (`all_tokens` in `Encoder.encoder`). -/
def encodeTokens (data : List Nat) : List (List Nat) :=
  encodeTokensAux data.length data 0

/-- `token_count` in `Encoder.encoder`. -/
def numTokens (data : List Nat) : Nat :=
  (encodeTokens data).length

/-- The complete bit stream built by `Encoder.encoder`:
`delta_encode(token_count + 1)` followed by all token bits. -/
def encodeBits (data : List Nat) : List Nat :=
  delta_encode (numTokens data + 1) ++ (encodeTokens data).flatten

/-- Pack groups of 8 bits into bytes, MSB first (the chunking loop of
`Encoder.bits_to_bytes`; its input is always zero-padded to a multiple of 8). -/
def packBytes : List Nat → List Nat
  | b0 :: b1 :: b2 :: b3 :: b4 :: b5 :: b6 :: b7 :: rest =>
    fromBits [b0, b1, b2, b3, b4, b5, b6, b7] :: packBytes rest
  | _ => []

/-- `Encoder.bits_to_bytes`: the empty bit list gives `b""`; otherwise the
bits are zero-padded to the next multiple of 8 and packed MSB-first. -/
def bits_to_bytes (bits : List Nat) : List Nat :=
  if bits = [] then []
  else packBytes (bits ++ List.replicate ((8 - bits.length % 8) % 8) 0)

/-- `Encoder.encoder` as a buffer-to-buffer function (the file I/O and the
progress/ratio printing around it are outside the codec). -/
def encoder (data : List Nat) : List Nat :=
  bits_to_bytes (encodeBits data)

/-! ## Decoder.py -/

/-- `Decoder.bytes_to_bits`. -/
def bytes_to_bits (data : List Nat) : List Nat :=
  (data.map byteBits).flatten

/-- `Decoder.read_byte`: raises (`none`) when fewer than 8 bits remain. -/
def read_byte (bits : List Nat) (idx : Nat) : Option (Nat × Nat) :=
  if bits.length < idx + 8 then none
  else some (fromBits ((bits.drop idx).take 8), idx + 8)

/-- `Decoder.decode_token`: two Elias codes (`j_encoded`, `l_encoded`) then an
8-bit byte.  `j_encoded == 1 and l_encoded == 1` marks a literal.  Any raise
from the three reads is modelled as `none` (the caller catches `ValueError`).
Returns `(marker, j, l, byte_val, new_bit_index)`. -/
def decode_token (bits : List Nat) (idx : Nat) : Option (Nat × Nat × Nat × Nat × Nat) :=
  match delta_decode_stream bits idx with
  | none => none
  | some (je, i1) =>
    match delta_decode_stream bits i1 with
    | none => none
    | some (le, i2) =>
      match read_byte bits i2 with
      | none => none
      | some (b, i3) =>
        if je = 1 ∧ le = 1 then some (0, 0, 0, b, i3)
        else some (1, je, le, b, i3)

/-- The match-copy loop of `Decoder.decoder`:
`for i in range(l): output_data.append(output_data[start_pos + i])`
(byte-by-byte, so self-overlapping copies replicate). -/
def copyAppend : List Nat → Nat → Nat → List Nat
  | out, _, 0 => out
  | out, start, l + 1 => copyAppend (out ++ [out.getD start 0]) (start + 1) l

/-- The token loop of `Decoder.decoder`.  The first argument of the recursion
is the number of tokens still to decode (`rem = 0` on the last token, matching
`token_num == token_count - 1`).  Returns the output buffer together with a
flag recording whether the loop stopped early via one of the two `break`s
(failed `decode_token`, or a match offset exceeding the output size);
in the source the output buffer is written to the output file in either case. -/
def decodeLoop (bits : List Nat) : Nat → Nat → List Nat → List Nat × Bool
  | 0, _, out => (out, false)
  | rem + 1, idx, out =>
    match decode_token bits idx with
    | none => (out, true)
    | some (marker, j, l, b, idx2) =>
      if marker = 1 then
        if out.length < j then (out, true)
        else
          let copied := copyAppend out (out.length - j) l
          let out2 := if b = 0 ∧ rem = 0 then copied else copied ++ [b]
          decodeLoop bits rem idx2 out2
      else
        decodeLoop bits rem idx2 (out ++ [b])

/-- `Decoder.decoder` as a buffer-to-buffer function: `none` when the initial
token-count read raises (that one is not inside a `try`), otherwise the
decoded buffer plus the early-stop flag. -/
def decoder (compressed : List Nat) : Option (List Nat × Bool) :=
  let bits := bytes_to_bits compressed
  match delta_decode_stream bits 0 with
  | none => none
  | some (tcp1, idx) => some (decodeLoop bits (tcp1 - 1) idx [])

/-! ## Huffman.py -/

/-- `Huffman.HuffmanNode`: `byte_val` is `None` on internal nodes, child
slots hold `None` (here `.null`) or a node. -/
inductive HNode : Type where
  | null : HNode
  | mk : Option Nat → Nat → HNode → HNode → HNode
deriving DecidableEq, Repr

/-- The `freq` field (0 for the absent node, which is never compared). -/
def HNode.freq : HNode → Nat
  | .null => 0
  | .mk _ f _ _ => f

/-- `HuffmanNode.__lt__`: comparison by frequency only. -/
def HNode.lt (a b : HNode) : Bool :=
  a.freq < b.freq

/-- Is this child slot `None`? -/
def isNull : HNode → Bool
  | .null => true
  | _ => false

/-- CPython `heapq._siftdown(heap, startpos, pos)` with `newitem` passed
explicitly: walk up from `pos`, moving each larger parent down, and place
`newitem` at the final position.  Fuel is the starting `pos`; the position
strictly decreases each step so the fuel is never exhausted early, and the
fuel-exhausted case (`pos = 0`) coincides with the loop's exit action. -/
def siftdownAux : Nat → List HNode → Nat → Nat → HNode → List HNode
  | 0, heap, _, pos, item => heap.set pos item
  | fuel + 1, heap, startpos, pos, item =>
    if startpos < pos then
      let parentpos := (pos - 1) / 2
      let parent := heap.getD parentpos .null
      if item.lt parent then siftdownAux fuel (heap.set pos parent) startpos parentpos item
      else heap.set pos item
    else heap.set pos item

/-- CPython `heapq.heappush`: append, then sift the new item up from the end. -/
def heappush (heap : List HNode) (item : HNode) : List HNode :=
  siftdownAux heap.length (heap ++ [item]) 0 heap.length item

/-- The descent loop of CPython `heapq._siftup`: repeatedly move the smaller
child up into `pos` and descend to that child, until `pos` has no child
below `endpos`.  Returns the modified heap and the final position.  The
position at least doubles each step, so fuel `heap.length` suffices. -/
def pickChild (heap : List HNode) (endpos childpos : Nat) : Nat :=
  let rightpos := childpos + 1
  if rightpos < endpos ∧ ¬ ((heap.getD childpos .null).lt (heap.getD rightpos .null))
  then rightpos else childpos

/-- The descent loop body of CPython `heapq._siftup`, with `pickChild`
selecting the smaller child
(`if rightpos < endpos and not heap[childpos] < heap[rightpos]: childpos = rightpos`). -/
def siftupAux : Nat → List HNode → Nat → Nat → List HNode × Nat
  | 0, heap, _, pos => (heap, pos)
  | fuel + 1, heap, endpos, pos =>
    let childpos := 2 * pos + 1
    if childpos < endpos then
      let c := pickChild heap endpos childpos
      siftupAux fuel (heap.set pos (heap.getD c .null)) endpos c
    else (heap, pos)

/-- CPython `heapq._siftup(heap, pos)`: descend to a leaf, then sift the
saved item back up from there. -/
def siftup (heap : List HNode) (pos : Nat) : List HNode :=
  let newitem := heap.getD pos .null
  let r := siftupAux heap.length heap heap.length pos
  siftdownAux r.2 r.1 pos r.2 newitem

/-- CPython `heapq.heappop`: raises on an empty heap (`none`); otherwise
remove the last element, and if the heap is still nonempty move the last
element to the root and sift it up, returning the old root. -/
def heappop (heap : List HNode) : Option (HNode × List HNode) :=
  match heap with
  | [] => none
  | _ =>
    let lastelt := heap.getLastD .null
    let rest := heap.dropLast
    match rest with
    | [] => some (lastelt, [])
    | r0 :: _ => some (r0, siftup (rest.set 0 lastelt) 0)

/-- The merge loop of `Huffman.build_huffman_tree_from_freqs`
(`while len(heap) > 1`): pop the two lowest-frequency nodes and push an
internal parent holding their sum.  Fuel `heap.length` suffices since each
iteration shrinks the heap by one; the unreachable `none` branches return
the heap unchanged. -/
def buildLoopAux : Nat → List HNode → List HNode
  | 0, heap => heap
  | fuel + 1, heap =>
    if heap.length ≤ 1 then heap
    else
      match heappop heap with
      | none => heap
      | some (left, h1) =>
        match heappop h1 with
        | none => h1
        | some (right, h2) =>
          buildLoopAux fuel (heappush h2 (HNode.mk none (left.freq + right.freq) left right))

/-- `Huffman.build_huffman_tree_from_freqs`: `None` (`.null`) for an empty
table; a synthesized internal root with a single left child for a one-entry
heap; otherwise the merge loop's final root.  A frequency table is an
association list `(byte value, count)` in Python dict iteration order. -/
def build_huffman_tree_from_freqs (ft : List (Nat × Nat)) : HNode :=
  match ft with
  | [] => .null
  | _ =>
    let heap := ft.foldl (fun h p => heappush h (HNode.mk (some p.1) p.2 .null .null)) []
    if heap.length = 1 then
      HNode.mk none (heap.headD .null).freq (heap.headD .null) .null
    else (buildLoopAux heap.length heap).headD .null

/-- The recursive `traverse` of `Huffman.generate_huffman_codes`: a node with
a byte value records the accumulated bit path, an internal node recurses
left with a 0 appended and right with a 1 appended. -/
def traverseCodes : HNode → List Nat → List (List Nat) → List (List Nat)
  | .null, _, codes => codes
  | .mk bv _ l r, bits, codes =>
    match bv with
    | some v => codes.set v bits
    | none => traverseCodes r (bits ++ [1]) (traverseCodes l (bits ++ [0]) codes)

/-- `Huffman.generate_huffman_codes`: a 256-entry table of bit lists, empty
for bytes without a code; a lone leaf root gets code `[0]`. -/
def generate_huffman_codes (root : HNode) : List (List Nat) :=
  let codes : List (List Nat) := List.replicate 256 []
  match root with
  | .null => codes
  | .mk bv f l r =>
    if isNull l ∧ isNull r then
      match bv with
      | some v => codes.set v [0]
      | none => codes
    else traverseCodes (.mk bv f l r) [] codes

/-! ## Derived notions used only in statements -/

/-- No node of the tree has exactly one child (the full-binary-tree shape
claimed by the specification for every built Huffman tree). -/
def noSingleChild : HNode → Bool
  | .null => true
  | .mk _ _ l r =>
    ((isNull l && isNull r) || (!isNull l && !isNull r)) && noSingleChild l && noSingleChild r

/-- Shape of one emitted token's bits: a literal (`delta(1) delta(1) byte`)
or a match (`delta(j) delta(l) byte` with `j ≥ 1` and `l ≥ MIN_MATCH_LENGTH`). -/
def isTokenBits (t : List Nat) : Prop :=
  (∃ b, b < 256 ∧ t = delta_encode 1 ++ delta_encode 1 ++ byteBits b) ∨
  (∃ j l b, 1 ≤ j ∧ MIN_MATCH_LENGTH ≤ l ∧ b < 256 ∧
    t = delta_encode j ++ delta_encode l ++ byteBits b)

/-- Byte values at the leaves of a Huffman tree, left to right. -/
def leafBytes : HNode → List Nat
  | .null => []
  | .mk bv _ l r =>
    match bv with
    | some v => [v]
    | none => leafBytes l ++ leafBytes r

/-- Leaf byte values paired with their root-to-leaf bit paths. -/
def leafPaths : HNode → List (Nat × List Nat)
  | .null => []
  | .mk bv _ l r =>
    match bv with
    | some v => [(v, [])]
    | none =>
      (leafPaths l).map (fun p => (p.1, 0 :: p.2)) ++
      (leafPaths r).map (fun p => (p.1, 1 :: p.2))

/-- Well-formed built tree: a leaf carries a byte value and no children; an
internal node carries no byte value and two non-null well-formed children. -/
def wfT : HNode → Bool
  | .null => false
  | .mk bv _ l r =>
    match bv with
    | some _ => isNull l && isNull r
    | none => wfT l && wfT r

/-- All leaf byte values across the trees held in a heap. -/
def heapBytes (heap : List HNode) : List Nat :=
  heap.flatMap leafBytes

/-! ## Basic lemmas about binary digit lists -/

theorem natBitsAux_zero (f : Nat) : natBitsAux f 0 = [] := by
  cases f <;> simp [natBitsAux]

theorem natBitsAux_stable : ∀ f g n : Nat, n ≤ f → n ≤ g → natBitsAux f n = natBitsAux g n := by
  intro f
  induction f with
  | zero =>
    intro g n hf _
    interval_cases n
    simp [natBitsAux_zero]
  | succ f ih =>
    intro g n hf hg
    rcases Nat.eq_zero_or_pos n with h0 | h1
    · subst h0; simp [natBitsAux_zero]
    · obtain ⟨g', rfl⟩ : ∃ g', g = g' + 1 := ⟨g - 1, by omega⟩
      have hdiv : n / 2 < n := Nat.div_lt_self h1 (by omega)
      simp only [natBitsAux, if_neg (by omega : ¬ n = 0)]
      rw [ih g' (n / 2) (by omega) (by omega)]

theorem natBits_succ (n : Nat) (h : n ≠ 0) : natBits n = natBits (n / 2) ++ [n % 2] := by
  obtain ⟨m, rfl⟩ : ∃ m, n = m + 1 := ⟨n - 1, by omega⟩
  show natBitsAux (m + 1) (m + 1) = _
  simp only [natBitsAux, if_neg h]
  rw [natBitsAux_stable m ((m + 1) / 2) ((m + 1) / 2) (by omega) le_rfl]
  rfl

theorem fromBits_append_singleton (xs : List Nat) (b : Nat) :
    fromBits (xs ++ [b]) = 2 * fromBits xs + b := by
  simp [fromBits, List.foldl_append]

theorem fromBits_natBits (n : Nat) : fromBits (natBits n) = n := by
  induction n using Nat.strong_induction_on with
  | _ n ih =>
    rcases Nat.eq_zero_or_pos n with h0 | h1
    · subst h0; simp [natBits, natBitsAux_zero, fromBits]
    · rw [natBits_succ n (by omega), fromBits_append_singleton,
        ih (n / 2) (Nat.div_lt_self h1 (by omega))]
      omega

theorem natBits_cons (n : Nat) (h : 1 ≤ n) : ∃ t, natBits n = 1 :: t := by
  induction n using Nat.strong_induction_on with
  | _ n ih =>
    rcases Nat.lt_or_ge n 2 with h2 | h2
    · interval_cases n
      exact ⟨[], rfl⟩
    · obtain ⟨t, ht⟩ := ih (n / 2) (Nat.div_lt_self (by omega) (by omega)) (by omega)
      exact ⟨t ++ [n % 2], by rw [natBits_succ n (by omega), ht]; rfl⟩

theorem natBits_length_pos (n : Nat) (h : 1 ≤ n) : 1 ≤ (natBits n).length := by
  obtain ⟨t, ht⟩ := natBits_cons n h
  simp [ht]

theorem natBits_length_le (n k : Nat) (h : n < 2 ^ k) : (natBits n).length ≤ k := by
  induction n using Nat.strong_induction_on generalizing k with
  | _ n ih =>
    rcases Nat.eq_zero_or_pos n with h0 | h1
    · subst h0; simp [natBits, natBitsAux_zero]
    · have hk : 1 ≤ k := by
        rcases Nat.eq_zero_or_pos k with rfl | hk
        · simp at h; omega
        · exact hk
      obtain ⟨k', rfl⟩ : ∃ k', k = k' + 1 := ⟨k - 1, by omega⟩
      rw [natBits_succ n (by omega)]
      have : n / 2 < 2 ^ k' := by
        have := Nat.pow_succ 2 k'
        omega
      simp only [List.length_append, List.length_cons, List.length_nil]
      have := ih (n / 2) (Nat.div_lt_self h1 (by omega)) k' this
      omega

theorem natBits_length_le_self (n : Nat) : (natBits n).length ≤ n := by
  induction n using Nat.strong_induction_on with
  | _ n ih =>
    rcases Nat.eq_zero_or_pos n with h0 | h1
    · subst h0; simp [natBits, natBitsAux_zero]
    · rw [natBits_succ n (by omega)]
      have := ih (n / 2) (Nat.div_lt_self h1 (by omega))
      simp only [List.length_append, List.length_cons, List.length_nil]
      omega

theorem gamma_encode_length (n : Nat) :
    (gamma_encode n).length = ((natBits n).length - 1) + (natBits n).length := by
  simp [gamma_encode]

theorem delta_encode_length (n : Nat) (h : 1 ≤ n) :
    (delta_encode n).length =
      ((natBits (natBits n).length).length - 1) + (natBits (natBits n).length).length
        + ((natBits n).length - 1) := by
  have := natBits_length_pos n h
  simp [delta_encode, gamma_encode_length]

theorem leadZeros_replicate (k : Nat) (xs : List Nat) :
    leadZeros (List.replicate k 0 ++ 1 :: xs) = some k := by
  induction k with
  | zero => simp [leadZeros]
  | succ k ih => simp [List.replicate_succ, leadZeros, ih]

theorem drop_replicate_append (k : Nat) (xs : List Nat) :
    (List.replicate k (0 : Nat) ++ xs).drop k = xs := by
  have := List.drop_left (List.replicate k (0 : Nat)) xs
  rwa [List.length_replicate] at this

theorem take_cons_append (a : Nat) (xs ys : List Nat) :
    ((a :: xs) ++ ys).take (xs.length + 1) = a :: xs := by
  have := List.take_left (a :: xs) ys
  rwa [List.length_cons] at this


theorem delta_round_trip (n : Nat) (h : 1 ≤ n) :
    delta_decode_stream (delta_encode n) 0 = some (n, (delta_encode n).length) := by
  obtain ⟨tn, htn⟩ := natBits_cons n h
  have hL : (natBits n).length = tn.length + 1 := by rw [htn]; rfl
  have hL1 : 1 ≤ (natBits n).length := natBits_length_pos n h
  obtain ⟨tL, htL⟩ := natBits_cons (natBits n).length hL1
  have hL2 : (natBits (natBits n).length).length = tL.length + 1 := by rw [htL]; rfl
  have hstream : delta_encode n =
      (List.replicate tL.length 0 ++ (1 :: tL)) ++ tn := by
    rw [delta_encode, gamma_encode, htL, htn]
    simp
  have hfromL : fromBits (1 :: tL) = (natBits n).length := by
    rw [← htL, fromBits_natBits]
  have hdrop : (delta_encode n).drop (0 + tL.length) = (1 :: tL) ++ tn := by
    rw [hstream, Nat.zero_add, List.append_assoc, drop_replicate_append, List.cons_append]
  have htake : ((1 :: tL) ++ tn).take (tL.length + 1) = 1 :: tL := take_cons_append 1 tL tn
  have hlen : (delta_encode n).length = tL.length + (tL.length + 1) + tn.length := by
    rw [hstream]
    simp only [List.length_append, List.length_replicate, List.length_cons]
  have hlz : leadZeros ((delta_encode n).drop 0) = some tL.length := by
    rw [List.drop_zero, hstream, List.append_assoc, List.cons_append, leadZeros_replicate]
  rw [delta_decode_stream, hlz]
  simp only [hdrop, htake, hfromL, List.length_cons]
  by_cases h1 : (natBits n).length = 1
  · rw [if_pos h1]
    have htn0 : tn.length = 0 := by omega
    have hn1 : n = 1 := by
      have h2 := fromBits_natBits n
      rw [htn, List.eq_nil_of_length_eq_zero htn0] at h2
      simpa [fromBits] using h2.symm
    have htL0 : tL.length = 0 := by
      have h2 := hL2
      rw [h1] at h2
      have h3 : (natBits 1).length = 1 := rfl
      omega
    subst hn1
    have h4 : (delta_encode 1).length = 1 := rfl
    rw [h4]
    simp [htL0]
  · rw [if_neg h1]
    have hdrop2 : (delta_encode n).drop (0 + tL.length + (tL.length + 1)) = tn := by
      rw [hstream, Nat.zero_add]
      have h5 : tL.length + (tL.length + 1) =
          (List.replicate tL.length (0 : Nat) ++ (1 :: tL)).length := by
        simp
      rw [h5, List.drop_left]
    have htake2 : tn.take ((natBits n).length - 1) = tn := by
      have h6 : (natBits n).length - 1 = tn.length := by omega
      rw [h6, List.take_length]
    rw [hdrop2, htake2]
    have hval : fromBits (1 :: tn) = n := by
      rw [← htn, fromBits_natBits]
    rw [hval, hlen]
    have h7 : 0 + tL.length + (tL.length + 1) + ((natBits n).length - 1) =
        tL.length + (tL.length + 1) + tn.length := by omega
    rw [h7]

/-! ## Lemmas about the match finder -/

theorem matchLenAux_le (fuel : Nat) (data : List Nat) (s i le k : Nat)
    (hk : k ≤ LOOKAHEAD_SIZE) : matchLenAux fuel data s i le k ≤ LOOKAHEAD_SIZE := by
  induction fuel generalizing k with
  | zero => exact hk
  | succ fuel ih =>
    rw [matchLenAux]
    split
    · next hc => exact ih (k + 1) (by omega)
    · exact hk

theorem matchLenAux_add_le (fuel : Nat) (data : List Nat) (s i le k : Nat) :
    i + matchLenAux fuel data s i le k ≤ max (i + k) le := by
  induction fuel generalizing k with
  | zero => exact le_max_left _ _
  | succ fuel ih =>
    rw [matchLenAux]
    split
    · next hc =>
      have := ih (k + 1)
      omega
    · exact le_max_left _ _

theorem matchLenAt_le_lookahead (data : List Nat) (i s : Nat) :
    matchLenAt data i s ≤ LOOKAHEAD_SIZE :=
  matchLenAux_le _ data s i _ 0 (by omega)

theorem matchLenAt_add_le (data : List Nat) (i s : Nat) (h : i < data.length) :
    i + matchLenAt data i s ≤ data.length := by
  have h1 := matchLenAux_add_le (LOOKAHEAD_SIZE + 1) data s i
    (min data.length (i + LOOKAHEAD_SIZE)) 0
  have h2 : min data.length (i + LOOKAHEAD_SIZE) ≤ data.length := min_le_left _ _
  have h3 : i ≤ min data.length (i + LOOKAHEAD_SIZE) := by
    have := min_le_right data.length (i + LOOKAHEAD_SIZE)
    omega
  rw [matchLenAt]
  omega

theorem foldl_flmStep_snd_mono (data : List Nat) (i : Nat) :
    ∀ ps : List Nat, ∀ acc : Nat × Nat, acc.2 ≤ (ps.foldl (flmStep data i) acc).2 := by
  intro ps
  induction ps with
  | nil => intro acc; exact le_rfl
  | cons hd tl ih =>
    intro acc
    have h1 : acc.2 ≤ (flmStep data i acc hd).2 := by
      rw [flmStep]
      split
      · next hlt => exact le_of_lt hlt
      · exact le_rfl
    exact le_trans h1 (ih (flmStep data i acc hd))

theorem foldl_flmStep_eq_of_snd_eq (data : List Nat) (i : Nat) :
    ∀ ps : List Nat, ∀ acc : Nat × Nat,
      (ps.foldl (flmStep data i) acc).2 = acc.2 → ps.foldl (flmStep data i) acc = acc := by
  intro ps
  induction ps with
  | nil => intro acc _; rfl
  | cons hd tl ih =>
    intro acc hsnd
    rw [List.foldl_cons] at hsnd ⊢
    have hmono := foldl_flmStep_snd_mono data i tl (flmStep data i acc hd)
    have hstep : acc.2 ≤ (flmStep data i acc hd).2 := by
      rw [flmStep]
      split
      · next hlt => exact le_of_lt hlt
      · exact le_rfl
    have heq : (flmStep data i acc hd).2 = acc.2 := by omega
    have hacc : flmStep data i acc hd = acc := by
      rw [flmStep] at heq ⊢
      split at heq
      · next hlt => simp at heq; omega
      · next hlt => rw [if_neg hlt]
    rw [hacc] at hsnd ⊢
    exact ih acc hsnd

theorem foldl_flmStep_le (data : List Nat) (i : Nat) :
    ∀ ps : List Nat, ∀ acc : Nat × Nat, ∀ s ∈ ps,
      matchLenAt data i s ≤ (ps.foldl (flmStep data i) acc).2 := by
  intro ps
  induction ps with
  | nil => intro acc s hs; simp at hs
  | cons hd tl ih =>
    intro acc s hs
    rw [List.foldl_cons]
    rcases List.mem_cons.mp hs with rfl | hs'
    · have h1 : matchLenAt data i s ≤ (flmStep data i acc s).2 := by
        rw [flmStep]
        split
        · next hlt => exact le_rfl
        · next hlt => omega
      exact le_trans h1 (foldl_flmStep_snd_mono data i tl _)
    · exact ih _ s hs'

theorem foldl_flmStep_exists (data : List Nat) (i : Nat) :
    ∀ ps : List Nat, ∀ acc : Nat × Nat,
      ps.foldl (flmStep data i) acc = acc ∨
      ∃ s ∈ ps, ps.foldl (flmStep data i) acc = (i - s, matchLenAt data i s) := by
  intro ps
  induction ps with
  | nil => intro acc; exact Or.inl rfl
  | cons hd tl ih =>
    intro acc
    rw [List.foldl_cons]
    by_cases hlt : acc.2 < matchLenAt data i hd
    · have hstep : flmStep data i acc hd = (i - hd, matchLenAt data i hd) := by
        rw [flmStep]
        exact if_pos hlt
      rw [hstep]
      rcases ih (i - hd, matchLenAt data i hd) with heq | ⟨s, hs, heqs⟩
      · exact Or.inr ⟨hd, List.mem_cons_self hd tl, heq⟩
      · exact Or.inr ⟨s, List.mem_cons_of_mem hd hs, heqs⟩
    · have hstep : flmStep data i acc hd = acc := by
        rw [flmStep]
        exact if_neg hlt
      rw [hstep]
      rcases ih acc with heq | ⟨s, hs, heqs⟩
      · exact Or.inl heq
      · exact Or.inr ⟨s, List.mem_cons_of_mem hd hs, heqs⟩

theorem foldl_flmStep_tie (data : List Nat) (i : Nat) :
    ∀ ps : List Nat, List.Pairwise (· < ·) ps → ∀ acc : Nat × Nat, ∀ s ∈ ps,
      acc.2 < matchLenAt data i s →
      matchLenAt data i s = (ps.foldl (flmStep data i) acc).2 →
      i - s ≤ (ps.foldl (flmStep data i) acc).1 := by
  intro ps
  induction ps with
  | nil => intro _ acc s hs; simp at hs
  | cons hd tl ih =>
    intro hpw acc s hs hlt htie
    obtain ⟨hhd, htl⟩ := List.pairwise_cons.mp hpw
    rw [List.foldl_cons] at htie ⊢
    rcases List.mem_cons.mp hs with rfl | hs'
    · have hstep : flmStep data i acc s = (i - s, matchLenAt data i s) := by
        rw [flmStep]
        exact if_pos hlt
      rw [hstep] at htie ⊢
      have := foldl_flmStep_eq_of_snd_eq data i tl (i - s, matchLenAt data i s) htie.symm
      rw [this]
    · by_cases himp : (flmStep data i acc hd).2 < matchLenAt data i s
      · exact ih htl _ s hs' himp htie
      · have hmono := foldl_flmStep_snd_mono data i tl (flmStep data i acc hd)
        have hle := foldl_flmStep_le data i tl (flmStep data i acc hd) s hs'
        have heq2 : (tl.foldl (flmStep data i) (flmStep data i acc hd)).2 =
            (flmStep data i acc hd).2 := by omega
        have hacc := foldl_flmStep_eq_of_snd_eq data i tl _ heq2
        rw [hacc]
        have hchanged : acc.2 < (flmStep data i acc hd).2 := by omega
        have hstep : flmStep data i acc hd = (i - hd, matchLenAt data i hd) := by
          rw [flmStep] at hchanged ⊢
          split at hchanged
          · next hpos => rw [if_pos hpos]
          · next hpos => omega
        rw [hstep]
        have : hd < s := hhd s hs'
        omega

theorem flm_cases (data : List Nat) (i : Nat) :
    find_longest_match data i = (0, 0) ∨
    ∃ s, i - WINDOW_SIZE ≤ s ∧ s < i ∧
      find_longest_match data i = (i - s, matchLenAt data i s) := by
  rw [find_longest_match]
  rcases foldl_flmStep_exists data i (List.range' (i - WINDOW_SIZE) (i - (i - WINDOW_SIZE))) (0, 0)
    with heq | ⟨s, hs, heqs⟩
  · exact Or.inl heq
  · refine Or.inr ⟨s, ?_, ?_, heqs⟩
    · exact (List.mem_range'_1.mp hs).1
    · have := (List.mem_range'_1.mp hs).2
      omega

theorem flm_offset_le (data : List Nat) (i : Nat) :
    (find_longest_match data i).1 ≤ WINDOW_SIZE := by
  rcases flm_cases data i with heq | ⟨s, hws, hsi, heq⟩ <;> rw [heq]
  · simp
  · simp
    omega

theorem flm_offset_pos (data : List Nat) (i : Nat) (h : 0 < (find_longest_match data i).2) :
    1 ≤ (find_longest_match data i).1 := by
  rcases flm_cases data i with heq | ⟨s, hws, hsi, heq⟩
  · rw [heq] at h; simp at h
  · rw [heq]; simp; omega

theorem flm_len_le_lookahead (data : List Nat) (i : Nat) :
    (find_longest_match data i).2 ≤ LOOKAHEAD_SIZE := by
  rcases flm_cases data i with heq | ⟨s, hws, hsi, heq⟩ <;> rw [heq]
  · simp [LOOKAHEAD_SIZE]
  · exact matchLenAt_le_lookahead data i s

theorem flm_len_le_rem (data : List Nat) (i : Nat) (h : i < data.length) :
    i + (find_longest_match data i).2 ≤ data.length := by
  rcases flm_cases data i with heq | ⟨s, hws, hsi, heq⟩ <;> rw [heq]
  · simp
    omega
  · exact matchLenAt_add_le data i s h

/-! ## Lemmas about the per-token encoder step -/

theorem encode_advance_pos (data : List Nat) (i : Nat) (h : i < data.length) :
    1 ≤ (encode data i).2.1 := by
  have h' : ¬ data.length ≤ i := by omega
  by_cases hm : MIN_MATCH_LENGTH ≤ (find_longest_match data i).2
  · by_cases hnb : i + (find_longest_match data i).2 < data.length
    · simp [encode, h', hm, hnb]
    · simp [encode, h', hm, hnb]
      rw [MIN_MATCH_LENGTH] at hm
      omega
  · simp [encode, h', hm]

theorem encode_advance_le (data : List Nat) (i : Nat) (h : i < data.length) :
    i + (encode data i).2.1 ≤ data.length := by
  have h' : ¬ data.length ≤ i := by omega
  have hrem := flm_len_le_rem data i h
  by_cases hm : MIN_MATCH_LENGTH ≤ (find_longest_match data i).2
  · by_cases hnb : i + (find_longest_match data i).2 < data.length
    · simp [encode, h', hm, hnb]
      omega
    · simp [encode, h', hm, hnb]
      omega
  · simp [encode, h', hm]
    omega

/-! ## Length bounds for the emitted bit stream -/

theorem delta_encode_length_le (n b1 b2 : Nat) (h1 : 1 ≤ n) (hn : n < 2 ^ b1)
    (hb : b1 < 2 ^ b2) : (delta_encode n).length ≤ (b1 - 1) + (2 * b2 - 1) := by
  have hL := natBits_length_le n b1 hn
  have hL1 := natBits_length_pos n h1
  have hL2 := natBits_length_le (natBits n).length b2 (by omega)
  have hL21 := natBits_length_pos (natBits n).length hL1
  rw [delta_encode_length n h1]
  omega

theorem delta_encode_length_one : (delta_encode 1).length = 1 := rfl

theorem byteBits_length (b : Nat) : (byteBits b).length = 8 := rfl

theorem delta_encode_length_le_19 (j : Nat) (h1 : 1 ≤ j) (h2 : j ≤ 4096) :
    (delta_encode j).length ≤ 19 := by
  have := delta_encode_length_le j 13 4 h1 (by omega) (by omega)
  omega

theorem delta_encode_length_le_16 (l : Nat) (h1 : 1 ≤ l) (h2 : l ≤ 1000) :
    (delta_encode l).length ≤ 16 := by
  have := delta_encode_length_le l 10 4 h1 (by omega) (by omega)
  omega

theorem getD_mem (l : List Nat) (i : Nat) (h : i < l.length) : l.getD i 0 ∈ l := by
  rw [List.getD_eq_getElem l 0 h]
  exact List.getElem_mem h

theorem encode_bits_le (data : List Nat) (i : Nat) (h : i < data.length) :
    (encode data i).2.2.length ≤ 15 * (encode data i).2.1 := by
  have h' : ¬ data.length ≤ i := by omega
  by_cases hm : MIN_MATCH_LENGTH ≤ (find_longest_match data i).2
  · have hm' : 3 ≤ (find_longest_match data i).2 := hm
    have hj1 : 1 ≤ (find_longest_match data i).1 := flm_offset_pos data i (by omega)
    have hj2 : (find_longest_match data i).1 ≤ 4096 := flm_offset_le data i
    have hl2 : (find_longest_match data i).2 ≤ 1000 := flm_len_le_lookahead data i
    have hdj := delta_encode_length_le_19 _ hj1 hj2
    have hdl := delta_encode_length_le_16 (find_longest_match data i).2 (by omega) hl2
    by_cases hnb : i + (find_longest_match data i).2 < data.length
    · simp only [encode, if_neg h', if_pos hm, if_pos hnb]
      simp only [List.length_append, byteBits_length]
      omega
    · simp only [encode, if_neg h', if_pos hm, if_neg hnb]
      simp only [List.length_append, byteBits_length]
      omega
  · simp only [encode, if_neg h', if_neg hm]
    simp only [List.length_append, byteBits_length, delta_encode_length_one]
    omega

theorem encodeTokensAux_bits_le (fuel : Nat) (data : List Nat) :
    ∀ i, ((encodeTokensAux fuel data i).map List.length).sum ≤ 15 * (data.length - i) := by
  induction fuel with
  | zero => intro i; simp [encodeTokensAux]
  | succ fuel ih =>
    intro i
    rw [encodeTokensAux]
    by_cases hi : data.length ≤ i
    · simp [hi]
    · rw [if_neg hi]
      simp only [List.map_cons, List.sum_cons]
      have h1 := encode_bits_le data i (by omega)
      have h2 := encode_advance_pos data i (by omega)
      have h3 := encode_advance_le data i (by omega)
      have h4 := ih (i + (encode data i).2.1)
      omega

theorem encodeTokensAux_count_le (fuel : Nat) (data : List Nat) :
    ∀ i, (encodeTokensAux fuel data i).length ≤ data.length - i := by
  induction fuel with
  | zero => intro i; simp [encodeTokensAux]
  | succ fuel ih =>
    intro i
    rw [encodeTokensAux]
    by_cases hi : data.length ≤ i
    · simp [hi]
    · rw [if_neg hi]
      simp only [List.length_cons]
      have h2 := encode_advance_pos data i (by omega)
      have h4 := ih (i + (encode data i).2.1)
      omega

theorem numTokens_le (data : List Nat) : numTokens data ≤ data.length := by
  have := encodeTokensAux_count_le data.length data 0
  simpa [numTokens, encodeTokens] using this

theorem header_length_le (n : Nat) : (delta_encode (n + 1)).length ≤ 3 * n + 1 := by
  have hL := natBits_length_le_self (n + 1)
  have hL1 := natBits_length_pos (n + 1) (by omega)
  have hL2 := natBits_length_le_self (natBits (n + 1)).length
  have hL21 := natBits_length_pos (natBits (n + 1)).length hL1
  rw [delta_encode_length (n + 1) (by omega)]
  omega

theorem encodeBits_length_le (data : List Nat) :
    (encodeBits data).length ≤ 18 * data.length + 1 := by
  rw [encodeBits]
  simp only [List.length_append, List.length_flatten]
  have h1 := header_length_le (numTokens data)
  have h2 := numTokens_le data
  have h3 := encodeTokensAux_bits_le data.length data 0
  rw [show encodeTokens data = encodeTokensAux data.length data 0 from rfl]
  omega

theorem packBytes_length (l : List Nat) : (packBytes l).length = l.length / 8 := by
  induction l using packBytes.induct with
  | case1 b0 b1 b2 b3 b4 b5 b6 b7 rest ih =>
    rw [packBytes]
    simp only [List.length_cons]
    omega
  | case2 t h =>
    rcases t with _ | ⟨b0, _ | ⟨b1, _ | ⟨b2, _ | ⟨b3, _ | ⟨b4, _ | ⟨b5, _ | ⟨b6, _ | ⟨b7, rest⟩⟩⟩⟩⟩⟩⟩⟩
    · exact rfl
    · show ([] : List Nat).length = _ / 8
      simp
    · show ([] : List Nat).length = _ / 8
      simp
    · show ([] : List Nat).length = _ / 8
      simp
    · show ([] : List Nat).length = _ / 8
      simp
    · show ([] : List Nat).length = _ / 8
      simp
    · show ([] : List Nat).length = _ / 8
      simp
    · show ([] : List Nat).length = _ / 8
      simp
    · exact absurd rfl (h b0 b1 b2 b3 b4 b5 b6 b7 rest)

theorem bits_to_bytes_length_le (bits : List Nat) :
    8 * (bits_to_bytes bits).length ≤ bits.length + 7 := by
  rw [bits_to_bytes]
  by_cases hb : bits = []
  · simp [hb]
  · rw [if_neg hb, packBytes_length]
    simp only [List.length_append, List.length_replicate]
    omega

/-! ## Shape of the emitted token bits -/

theorem encode_shape (data : List Nat) (i : Nat) (h : i < data.length)
    (hd : ∀ x ∈ data, x < 256) : isTokenBits (encode data i).2.2 := by
  have h' : ¬ data.length ≤ i := by omega
  by_cases hm : MIN_MATCH_LENGTH ≤ (find_longest_match data i).2
  · have hm' : 3 ≤ (find_longest_match data i).2 := hm
    have hj1 : 1 ≤ (find_longest_match data i).1 := flm_offset_pos data i (by omega)
    by_cases hnb : i + (find_longest_match data i).2 < data.length
    · refine Or.inr ⟨(find_longest_match data i).1, (find_longest_match data i).2,
        data.getD (i + (find_longest_match data i).2) 0, hj1, hm,
        hd _ (getD_mem data _ hnb), ?_⟩
      simp [encode, h', hm, hnb]
    · refine Or.inr ⟨(find_longest_match data i).1, (find_longest_match data i).2,
        0, hj1, hm, by omega, ?_⟩
      simp [encode, h', hm, hnb]
  · exact Or.inl ⟨data.getD i 0, hd _ (getD_mem data i h), by simp [encode, h', hm]⟩

theorem encodeTokensAux_shape (fuel : Nat) (data : List Nat) (hd : ∀ x ∈ data, x < 256) :
    ∀ i t, t ∈ encodeTokensAux fuel data i → isTokenBits t := by
  induction fuel with
  | zero => intro i t ht; simp [encodeTokensAux] at ht
  | succ fuel ih =>
    intro i t ht
    rw [encodeTokensAux] at ht
    by_cases hi : data.length ≤ i
    · simp [hi] at ht
    · rw [if_neg hi] at ht
      rcases List.mem_cons.mp ht with rfl | ht'
      · exact encode_shape data i (by omega) hd
      · exact ih _ t ht'

/-! ## Claim C1 -/

/-- C1: the round-trip claim `decode(encode(B)) == B` FAILS on the code.  At
`B = [97, 97, 97, 97, 0]` (`b"aaaa\x00"`) the encoder emits a literal `a` and
a match of length 3 whose following byte is the genuine trailing `0`; the
decoder cannot distinguish that byte from the encoder's synthetic
end-of-data 0 byte and drops it, returning `[97, 97, 97, 97]` with no error. -/
theorem C1_roundtrip_failure :
    decoder (encoder [97, 97, 97, 97, 0]) = some ([97, 97, 97, 97], false) ∧
    ([97, 97, 97, 97] : List Nat) ≠ [97, 97, 97, 97, 0] := by
  decide

/-! ## Claim C2 -/

/-- C2 counterexample: `len(encode(B)) ≤ len(B) + 1` is false at
`B = [0, 1, 2]`, whose container is 5 bytes; the encoder has no mode byte
and no raw-store fallback. -/
theorem C2_counterexample : ¬ ((encoder [0, 1, 2]).length ≤ [0, 1, 2].length + 1) := by
  decide

/-- C2 amended: the encoder always emits the delta-encoded token count
followed by the packed token bits, with no raw-store fallback; its output is
only linearly bounded, `len(encode(B)) ≤ 3 * len(B) + 1` for every buffer. -/
theorem C2_amended_length_bound (data : List Nat) :
    (encoder data).length ≤ 3 * data.length + 1 := by
  have h1 := bits_to_bytes_length_le (encodeBits data)
  have h2 := encodeBits_length_le data
  rw [encoder]
  omega

/-! ## Claim C3 -/

/-- C3 counterexample: the compressed stream does not begin with the
Elias-delta encoding of the token count (it encodes `token_count + 1`, and
contains no serialized Huffman tree and no flag bits): at `B = [0]` the
token count is 1 but `delta_encode 1 = [1]` is not a prefix of the stream. -/
theorem C3_counterexample :
    (delta_encode (numTokens [0])).isPrefixOf (encodeBits [0]) = false := by
  decide

/-- C3 amended: the compressed bit stream is exactly the Elias-delta encoding
of `token_count + 1` followed by the concatenated token bits, where every
token is either `delta(1) ++ delta(1) ++` an 8-bit literal byte, or
`delta(offset) ++ delta(length) ++` an 8-bit byte, with `offset ≥ 1` and
`length ≥ MIN_MATCH_LENGTH`; there is no Huffman tree section and no flag
bit. -/
theorem C3_amended_stream_format (data t : List Nat) (hd : ∀ x ∈ data, x < 256)
    (ht : t ∈ encodeTokens data) :
    encodeBits data = delta_encode (numTokens data + 1) ++ (encodeTokens data).flatten ∧
    isTokenBits t :=
  ⟨rfl, encodeTokensAux_shape data.length data hd 0 t ht⟩

theorem C3_witness :
    encodeBits [0] = delta_encode (numTokens [0] + 1) ++ (encodeTokens [0]).flatten ∧
    isTokenBits [1, 1, 0, 0, 0, 0, 0, 0, 0, 0] :=
  C3_amended_stream_format [0] [1, 1, 0, 0, 0, 0, 0, 0, 0, 0] (by decide) (by decide)

/-! ## Claim C4 -/

/-- C4: Elias delta decoding inverts Elias delta encoding for every `n ≥ 1`
(in particular for all `n` in `[1, 10_000_000]`), consuming exactly the
emitted bits: `delta_decode_stream (delta_encode n) 0 = (n, len)`. -/
theorem C4_delta_roundtrip (n : Nat) (h : 1 ≤ n) :
    delta_decode_stream (delta_encode n) 0 = some (n, (delta_encode n).length) :=
  delta_round_trip n h

theorem C4_witness : delta_decode_stream (delta_encode 5) 0 = some (5, 5) := by
  have h := C4_delta_roundtrip 5 (by decide)
  rw [h]
  decide

/-! ## Claim C5 -/

/-- C5: the claim that decoding fails whenever the stream is exhausted
mid-suffix is FALSE of the code: on the 3-bit stream `[0, 1, 1]` the decoder
needs `length_val - 1 = 2` suffix bits but zero remain; the Python slice
truncates silently and `delta_decode_stream` returns `(1, 5)` — claiming to
have consumed 5 bits of a 3-bit stream — instead of raising. -/
theorem C5_truncated_suffix_decodes : delta_decode_stream [0, 1, 1] 0 = some (1, 5) := by
  decide

/-! ## Claim C6 -/

/-- C6 counterexample: ties do NOT prefer the nearer match.  In
`[1, 2, 0, 1, 2, 3, 1, 2]` at position 6 the candidates at distance 3 and at
distance 6 both match with maximal length 2, yet the scan (farthest first,
replacing only on strict improvement) returns offset 6, not the smaller 3. -/
theorem C6_counterexample :
    find_longest_match [1, 2, 0, 1, 2, 3, 1, 2] 6 = (6, 2) ∧
    matchLenAt [1, 2, 0, 1, 2, 3, 1, 2] 6 3 = (find_longest_match [1, 2, 0, 1, 2, 3, 1, 2] 6).2 ∧
    3 < (find_longest_match [1, 2, 0, 1, 2, 3, 1, 2] 6).1 := by
  decide

/-- C6 amended: when several candidate starts in the window achieve the
maximal match length, `find_longest_match` returns the farthest one, i.e.
the LARGEST offset among the candidates of maximal length: every candidate
start `s` achieving the best (positive) length has `i - s ≤` the returned
offset. -/
theorem C6_amended_tie_prefers_farther (data : List Nat) (i s : Nat)
    (h1 : i - WINDOW_SIZE ≤ s) (h2 : s < i)
    (h3 : matchLenAt data i s = (find_longest_match data i).2)
    (h4 : 0 < matchLenAt data i s) :
    i - s ≤ (find_longest_match data i).1 := by
  have hmem : s ∈ List.range' (i - WINDOW_SIZE) (i - (i - WINDOW_SIZE)) := by
    rw [List.mem_range'_1]
    omega
  have hpw : List.Pairwise (· < ·)
      (List.range' (i - WINDOW_SIZE) (i - (i - WINDOW_SIZE))) :=
    List.pairwise_lt_range' _ _
  exact foldl_flmStep_tie data i _ hpw (0, 0) s hmem h4 h3

theorem C6_witness : 3 - 2 ≤ (find_longest_match [0, 0, 0, 0] 3).1 :=
  C6_amended_tie_prefers_farther [0, 0, 0, 0] 3 2 (by decide) (by decide) (by decide) (by decide)

/-! ## Claim C7 -/

/-- C7 counterexample: on the container `[93, 5, 170, 0]` (a literal `A`
followed by a match token with offset 5 exceeding the 1-byte output) the
decoder detects the corrupt match (flag `true`) yet still produces the
partially-decoded nonempty buffer `[65]`, which the source then writes to
the output file — the claim that no output is produced is FALSE. -/
theorem C7_counterexample :
    decoder [93, 5, 170, 0] = some ([65], true) ∧
    decode_token (bytes_to_bits [93, 5, 170, 0]) 14 = some (1, 5, 3, 0, 31) ∧
    ([65] : List Nat) ≠ [] := by
  decide

/-- C7 amended: when the decoder reads a match token whose offset exceeds
the current output size it stops decoding immediately — no further token is
processed and the already-accumulated output is returned unchanged (and then
written out by the caller), with the early-stop flag set. -/
theorem C7_amended_stops_with_partial_output (bits : List Nat) (n idx : Nat)
    (out : List Nat) (j l b idx2 : Nat)
    (hdt : decode_token bits idx = some (1, j, l, b, idx2))
    (hov : out.length < j) :
    decodeLoop bits (n + 1) idx out = (out, true) := by
  rw [decodeLoop, hdt]
  simp [hov]

theorem C7_witness :
    decodeLoop (delta_encode 5 ++ delta_encode 3 ++ byteBits 0) 1 0 [65] = ([65], true) :=
  C7_amended_stops_with_partial_output (delta_encode 5 ++ delta_encode 3 ++ byteBits 0)
    0 0 [65] 5 3 0 17 (by decide) (by decide)

/-! ## Claim C10 -/

/-- C10: for every buffer and every in-range position, the per-token encode
step returns an advance of at least 1 (a literal advances by 1, a match by
`l ≥ MIN_MATCH_LENGTH` or `l + 1`), so the tokenization loop strictly
increases its position and terminates on every finite input. -/
theorem C10_token_advance_pos (data : List Nat) (i : Nat) (h : i < data.length) :
    1 ≤ (encode data i).2.1 :=
  encode_advance_pos data i h

theorem C10_witness : 1 ≤ (encode [0, 1] 0).2.1 :=
  C10_token_advance_pos [0, 1] 0 (by decide)

/-! ## Permutation lemmas for the heapq embedding -/

theorem getD_cons_set_perm (t : List HNode) :
    ∀ (k : Nat) (a : HNode), k < t.length →
      List.Perm (t.getD k .null :: t.set k a) (a :: t) := by
  induction t with
  | nil => intro k a hk; simp at hk
  | cons x s ih =>
    intro k a hk
    cases k with
    | zero => simpa using List.Perm.swap a x s
    | succ k =>
      have h1 : List.Perm (s.getD k .null :: x :: s.set k a)
          (x :: s.getD k .null :: s.set k a) := List.Perm.swap x (s.getD k .null) _
      have h2 := (ih k a (by simpa using hk)).cons x
      have h3 : List.Perm (x :: a :: s) (a :: x :: s) := List.Perm.swap a x s
      simpa using (h1.trans h2).trans h3

theorem cons_set_perm (t : List HNode) :
    ∀ (k : Nat) (a x : HNode), k < t.length →
      List.Perm (a :: t.set k x) (x :: t.set k a) := by
  induction t with
  | nil => intro k a x hk; simp at hk
  | cons y s ih =>
    intro k a x hk
    cases k with
    | zero => simpa using List.Perm.swap x a s
    | succ k =>
      have h1 : List.Perm (a :: y :: s.set k x) (y :: a :: s.set k x) :=
        List.Perm.swap y a _
      have h2 := (ih k a x (by simpa using hk)).cons y
      have h3 : List.Perm (y :: x :: s.set k a) (x :: y :: s.set k a) :=
        List.Perm.swap x y _
      simpa using (h1.trans h2).trans h3

theorem set_set_perm (l : List HNode) :
    ∀ (i j : Nat) (a : HNode), i < l.length → j < l.length → i ≠ j →
      List.Perm ((l.set i (l.getD j .null)).set j a) (l.set i a) := by
  induction l with
  | nil => intro i j a hi _ _; simp at hi
  | cons x t ih =>
    intro i j a hi hj hij
    cases i with
    | zero =>
      cases j with
      | zero => exact absurd rfl hij
      | succ j => simpa using getD_cons_set_perm t j a (by simpa using hj)
    | succ i =>
      cases j with
      | zero => simpa using cons_set_perm t i a x (by simpa using hi)
      | succ j =>
        simpa using (ih i j a (by simpa using hi) (by simpa using hj) (by omega)).cons x

theorem siftdownAux_length (fuel : Nat) :
    ∀ (h : List HNode) (s p : Nat) (it : HNode),
      (siftdownAux fuel h s p it).length = h.length := by
  induction fuel with
  | zero => intro h s p it; simp [siftdownAux]
  | succ fuel ih =>
    intro h s p it
    simp only [siftdownAux]
    split
    · split
      · rw [ih]; simp
      · simp
    · simp

theorem siftdownAux_perm (fuel : Nat) :
    ∀ (h : List HNode) (s p : Nat) (it : HNode), p < h.length →
      List.Perm (siftdownAux fuel h s p it) (h.set p it) := by
  induction fuel with
  | zero => intro h s p it _; exact List.Perm.refl _
  | succ fuel ih =>
    intro h s p it hp
    simp only [siftdownAux]
    split
    · next hsp =>
      split
      · next hlt =>
        have hpl : (p - 1) / 2 < h.length := by omega
        have h1 := ih (h.set p (h.getD ((p - 1) / 2) .null)) s ((p - 1) / 2) it
          (by simp; omega)
        exact h1.trans (set_set_perm h p ((p - 1) / 2) it hp hpl (by omega))
      · exact List.Perm.refl _
    · exact List.Perm.refl _

theorem set_append_last (h : List HNode) (x a : HNode) :
    (h ++ [x]).set h.length a = h ++ [a] := by
  induction h with
  | nil => rfl
  | cons y t ih => simp [ih]

theorem heappush_perm (h : List HNode) (it : HNode) :
    List.Perm (heappush h it) (it :: h) := by
  have h1 := siftdownAux_perm h.length (h ++ [it]) 0 h.length it (by simp)
  rw [heappush]
  rw [set_append_last] at h1
  exact h1.trans (List.perm_append_singleton it h)

theorem heappush_length (h : List HNode) (it : HNode) :
    (heappush h it).length = h.length + 1 := by
  rw [heappush, siftdownAux_length]
  simp

theorem siftupAux_length (fuel : Nat) :
    ∀ (h : List HNode) (e p : Nat), ((siftupAux fuel h e p).1).length = h.length := by
  induction fuel with
  | zero => intro h e p; rfl
  | succ fuel ih =>
    intro h e p
    rw [siftupAux]
    split
    · rw [ih]; simp
    · rfl

theorem pickChild_lt (heap : List HNode) (e cp : Nat) (h : cp < e) :
    pickChild heap e cp < e := by
  rw [pickChild]
  split
  · next hr => omega
  · exact h

theorem siftupAux_pos (fuel : Nat) :
    ∀ (h : List HNode) (e p : Nat), p < e → (siftupAux fuel h e p).2 < e := by
  induction fuel with
  | zero => intro h e p hp; exact hp
  | succ fuel ih =>
    intro h e p hp
    rw [siftupAux]
    split
    · next hc => exact ih _ e _ (pickChild_lt h e (2 * p + 1) hc)
    · exact hp

theorem siftupAux_hole_perm (fuel : Nat) :
    ∀ (h : List HNode) (e p : Nat) (x : HNode), e = h.length → p < e →
      List.Perm (((siftupAux fuel h e p).1).set (siftupAux fuel h e p).2 x)
        (h.set p x) := by
  induction fuel with
  | zero => intro h e p x _ _; exact List.Perm.refl _
  | succ fuel ih =>
    intro h e p x he hp
    rw [siftupAux]
    split
    · next hc =>
      have hclt : pickChild h e (2 * p + 1) < e := pickChild_lt h e (2 * p + 1) hc
      have hcgt : 2 * p + 1 ≤ pickChild h e (2 * p + 1) := by
        rw [pickChild]
        split
        · omega
        · omega
      have h1 := ih (h.set p (h.getD (pickChild h e (2 * p + 1)) .null)) e
        (pickChild h e (2 * p + 1)) x (by simpa using he) hclt
      refine h1.trans ?_
      exact set_set_perm h p (pickChild h e (2 * p + 1)) x (by omega) (by omega) (by omega)
    · exact List.Perm.refl _

theorem set_getD_self (l : List HNode) : ∀ p, p < l.length → l.set p (l.getD p .null) = l := by
  induction l with
  | nil => intro p hp; simp at hp
  | cons x t ih =>
    intro p hp
    cases p with
    | zero => rfl
    | succ p =>
      show x :: t.set p (t.getD p HNode.null) = x :: t
      rw [ih p (by simpa using hp)]

theorem siftup_perm (h : List HNode) (p : Nat) (hp : p < h.length) :
    List.Perm (siftup h p) h := by
  rw [siftup]
  have hlen := siftupAux_length h.length h h.length p
  have hpos := siftupAux_pos h.length h h.length p hp
  have h1 := siftdownAux_perm (siftupAux h.length h h.length p).2
    (siftupAux h.length h h.length p).1 p (siftupAux h.length h h.length p).2
    (h.getD p .null) (by rw [hlen]; exact hpos)
  have h2 := siftupAux_hole_perm h.length h h.length p (h.getD p .null) rfl hp
  rw [set_getD_self h p hp] at h2
  exact h1.trans h2

theorem dropLast_append_getLastD (l : List HNode) : ∀ d : HNode, l ≠ [] →
    l.dropLast ++ [l.getLastD d] = l := by
  induction l with
  | nil => intro d h; exact absurd rfl h
  | cons x t ih =>
    intro d _
    cases t with
    | nil => rfl
    | cons y s =>
      rw [List.getLastD_cons]
      show x :: ((y :: s).dropLast ++ [(y :: s).getLastD x]) = x :: y :: s
      rw [ih x (by simp)]

theorem heappop_unfold (hd : HNode) (t : List HNode) :
    heappop (hd :: t) =
      (match (hd :: t).dropLast with
       | [] => some ((hd :: t).getLastD .null, [])
       | r0 :: _ => some (r0,
           siftup (((hd :: t).dropLast).set 0 ((hd :: t).getLastD .null)) 0)) := by
  cases hdl : (hd :: t).dropLast with
  | nil =>
    rw [heappop, hdl]
    exact fun hcontr => List.noConfusion hcontr
  | cons r0 t' =>
    rw [heappop, hdl]
    exact fun hcontr => List.noConfusion hcontr

theorem heappop_perm (h0 : List HNode) (x : HNode) (h' : List HNode)
    (he : heappop h0 = some (x, h')) : List.Perm (x :: h') h0 := by
  match h0 with
  | [] => simp [heappop] at he
  | hd :: t =>
    have happ := dropLast_append_getLastD (hd :: t) HNode.null (List.cons_ne_nil hd t)
    rw [heappop_unfold] at he
    cases hdl : (hd :: t).dropLast with
    | nil =>
      rw [hdl] at he happ
      injection he with hpair
      have hx := congrArg Prod.fst hpair
      have hh := congrArg Prod.snd hpair
      simp only at hx hh
      subst hx
      subst hh
      rw [← happ]
      exact List.Perm.refl _
    | cons r0 t' =>
      rw [hdl] at he happ
      injection he with hpair
      have hx := congrArg Prod.fst hpair
      have hh := congrArg Prod.snd hpair
      simp only at hx hh
      subst hx
      subst hh
      have hsp := siftup_perm ((r0 :: t').set 0 ((hd :: t).getLastD HNode.null)) 0 (by simp)
      have hset : (r0 :: t').set 0 ((hd :: t).getLastD HNode.null)
          = (hd :: t).getLastD HNode.null :: t' := rfl
      rw [hset] at hsp
      refine (hsp.cons r0).trans ?_
      have hswap : List.Perm (r0 :: (hd :: t).getLastD HNode.null :: t')
          ((hd :: t).getLastD HNode.null :: r0 :: t') :=
        List.Perm.swap ((hd :: t).getLastD HNode.null) r0 t'
      refine hswap.trans ?_
      generalize hL : (hd :: t).getLastD HNode.null = L at happ ⊢
      rw [← happ]
      exact (List.perm_append_singleton _ _).symm

/-! ## Invariants of the Huffman build loop -/

theorem heappop_some (heap : List HNode) (hne : heap ≠ []) :
    ∃ x h', heappop heap = some (x, h') := by
  match heap with
  | [] => exact absurd rfl hne
  | hd :: t =>
    rw [heappop_unfold]
    cases hdl : (hd :: t).dropLast with
    | nil => exact ⟨_, _, rfl⟩
    | cons r0 t' => exact ⟨_, _, rfl⟩

theorem heappop_length (heap : List HNode) (x : HNode) (h' : List HNode)
    (he : heappop heap = some (x, h')) : h'.length + 1 = heap.length := by
  have := (heappop_perm heap x h' he).length_eq
  simpa using this

theorem buildLoopAux_step (fuel : Nat) (heap : List HNode) (hlen : ¬ heap.length ≤ 1)
    (l : HNode) (h1 : List HNode) (hpop1 : heappop heap = some (l, h1))
    (r : HNode) (h2 : List HNode) (hpop2 : heappop h1 = some (r, h2)) :
    buildLoopAux (fuel + 1) heap =
      buildLoopAux fuel (heappush h2 (HNode.mk none (l.freq + r.freq) l r)) := by
  rw [buildLoopAux, if_neg hlen, hpop1]
  show (match heappop h1 with
    | none => h1
    | some (right, h2) =>
        buildLoopAux fuel (heappush h2 (HNode.mk none (l.freq + right.freq) l right))) = _
  rw [hpop2]

theorem buildLoopAux_inv (P : HNode → Prop)
    (hmerge : ∀ (f : Nat) (l r : HNode), P l → P r → P (HNode.mk none f l r)) :
    ∀ (fuel : Nat) (heap : List HNode), (∀ x ∈ heap, P x) →
      ∀ x ∈ buildLoopAux fuel heap, P x := by
  intro fuel
  induction fuel with
  | zero => intro heap hP x hx; exact hP x hx
  | succ fuel ih =>
    intro heap hP x hx
    by_cases hlen : heap.length ≤ 1
    · rw [buildLoopAux, if_pos hlen] at hx
      exact hP x hx
    · obtain ⟨l, h1, hpop1⟩ := heappop_some heap
        (by intro h0; rw [h0] at hlen; simp at hlen)
      have hperm1 := heappop_perm heap l h1 hpop1
      have hlen1 := heappop_length heap l h1 hpop1
      obtain ⟨r, h2, hpop2⟩ := heappop_some h1
        (by intro h0; rw [h0] at hlen1; simp at hlen1; omega)
      have hperm2 := heappop_perm h1 r h2 hpop2
      rw [buildLoopAux_step fuel heap hlen l h1 hpop1 r h2 hpop2] at hx
      have hPl : P l := hP l (hperm1.subset (List.mem_cons_self l h1))
      have hPh1 : ∀ y ∈ h1, P y := fun y hy => hP y (hperm1.subset (List.mem_cons_of_mem l hy))
      have hPr : P r := hPh1 r (hperm2.subset (List.mem_cons_self r h2))
      have hPh2 : ∀ y ∈ h2, P y := fun y hy => hPh1 y (hperm2.subset (List.mem_cons_of_mem r hy))
      refine ih (heappush h2 (HNode.mk none (l.freq + r.freq) l r)) ?_ x hx
      intro y hy
      rcases List.mem_cons.mp ((heappush_perm h2 _).subset hy) with rfl | hy'
      · exact hmerge _ l r hPl hPr
      · exact hPh2 y hy'

theorem heapBytes_cons (a : HNode) (t : List HNode) :
    heapBytes (a :: t) = leafBytes a ++ heapBytes t := rfl

theorem buildLoopAux_bytes (fuel : Nat) :
    ∀ heap : List HNode, List.Perm (heapBytes (buildLoopAux fuel heap)) (heapBytes heap) := by
  induction fuel with
  | zero => intro heap; exact List.Perm.refl _
  | succ fuel ih =>
    intro heap
    by_cases hlen : heap.length ≤ 1
    · rw [buildLoopAux, if_pos hlen]
    · obtain ⟨l, h1, hpop1⟩ := heappop_some heap
        (by intro h0; rw [h0] at hlen; simp at hlen)
      have hperm1 := heappop_perm heap l h1 hpop1
      have hlen1 := heappop_length heap l h1 hpop1
      obtain ⟨r, h2, hpop2⟩ := heappop_some h1
        (by intro h0; rw [h0] at hlen1; simp at hlen1; omega)
      have hperm2 := heappop_perm h1 r h2 hpop2
      rw [buildLoopAux_step fuel heap hlen l h1 hpop1 r h2 hpop2]
      refine (ih _).trans ?_
      have hp1 := (heappush_perm h2 (HNode.mk none (l.freq + r.freq) l r)).flatMap_right leafBytes
      refine hp1.trans ?_
      show List.Perm ((leafBytes l ++ leafBytes r) ++ heapBytes h2) (heapBytes heap)
      rw [List.append_assoc]
      have h3 : List.Perm (leafBytes r ++ heapBytes h2) (heapBytes h1) :=
        hperm2.flatMap_right leafBytes
      refine (List.Perm.append_left (leafBytes l) h3).trans ?_
      exact hperm1.flatMap_right leafBytes

theorem buildLoopAux_reaches (fuel : Nat) :
    ∀ heap : List HNode, 1 ≤ heap.length → heap.length ≤ fuel + 1 →
      (buildLoopAux fuel heap).length = 1 := by
  induction fuel with
  | zero => intro heap hge hle; show heap.length = 1; omega
  | succ fuel ih =>
    intro heap hge hle
    by_cases hlen : heap.length ≤ 1
    · rw [buildLoopAux, if_pos hlen]
      omega
    · obtain ⟨l, h1, hpop1⟩ := heappop_some heap
        (by intro h0; rw [h0] at hlen; simp at hlen)
      have hlen1 := heappop_length heap l h1 hpop1
      obtain ⟨r, h2, hpop2⟩ := heappop_some h1
        (by intro h0; rw [h0] at hlen1; simp at hlen1; omega)
      have hlen2 := heappop_length h1 r h2 hpop2
      rw [buildLoopAux_step fuel heap hlen l h1 hpop1 r h2 hpop2]
      apply ih
      · rw [heappush_length]; omega
      · rw [heappush_length]; omega

theorem foldl_heappush_length (ft : List (Nat × Nat)) :
    ∀ h0 : List HNode,
      (ft.foldl (fun h p => heappush h (HNode.mk (some p.1) p.2 .null .null)) h0).length
        = h0.length + ft.length := by
  induction ft with
  | nil => intro h0; simp
  | cons p ft ih =>
    intro h0
    rw [List.foldl_cons, ih, heappush_length]
    simp
    omega

theorem foldl_heappush_all (P : HNode → Prop)
    (hleaf : ∀ b f, P (HNode.mk (some b) f .null .null)) (ft : List (Nat × Nat)) :
    ∀ h0 : List HNode, (∀ x ∈ h0, P x) →
      ∀ x ∈ ft.foldl (fun h p => heappush h (HNode.mk (some p.1) p.2 .null .null)) h0, P x := by
  induction ft with
  | nil => intro h0 hP x hx; exact hP x hx
  | cons p ft ih =>
    intro h0 hP x hx
    rw [List.foldl_cons] at hx
    refine ih _ ?_ x hx
    intro y hy
    rcases List.mem_cons.mp ((heappush_perm h0 _).subset hy) with rfl | hy'
    · exact hleaf p.1 p.2
    · exact hP y hy'

theorem foldl_heappush_bytes (ft : List (Nat × Nat)) :
    ∀ h0 : List HNode, List.Perm
      (heapBytes (ft.foldl (fun h p => heappush h (HNode.mk (some p.1) p.2 .null .null)) h0))
      (ft.map Prod.fst ++ heapBytes h0) := by
  induction ft with
  | nil => intro h0; simp [heapBytes]
  | cons p ft ih =>
    intro h0
    rw [List.foldl_cons, List.map_cons]
    refine (ih (heappush h0 (HNode.mk (some p.1) p.2 .null .null))).trans ?_
    have h1 : List.Perm (heapBytes (heappush h0 (HNode.mk (some p.1) p.2 .null .null)))
        (p.1 :: heapBytes h0) :=
      (heappush_perm h0 (HNode.mk (some p.1) p.2 .null .null)).flatMap_right leafBytes
    refine (List.Perm.append_left (ft.map Prod.fst) h1).trans ?_
    exact List.perm_middle

theorem wfT_not_null (t : HNode) (h : wfT t = true) : isNull t = false := by
  cases t with
  | null => simp [wfT] at h
  | mk bv f l r => rfl

theorem isNull_eq_true (t : HNode) (h : isNull t = true) : t = HNode.null := by
  cases t with
  | null => rfl
  | mk bv f l r => simp [isNull] at h

theorem wfT_noSingleChild (t : HNode) : wfT t = true → noSingleChild t = true := by
  induction t with
  | null => intro _; rfl
  | mk bv f l r ihl ihr =>
    intro h
    cases bv with
    | some v =>
      have h' : (isNull l && isNull r) = true := h
      rw [Bool.and_eq_true] at h'
      rw [isNull_eq_true l h'.1, isNull_eq_true r h'.2]
      rfl
    | none =>
      have h' : (wfT l && wfT r) = true := h
      rw [Bool.and_eq_true] at h'
      have hnl := wfT_not_null l h'.1
      have hnr := wfT_not_null r h'.2
      show (((isNull l && isNull r) || (!isNull l && !isNull r))
        && noSingleChild l && noSingleChild r) = true
      rw [hnl, hnr, ihl h'.1, ihr h'.2]
      rfl

theorem build_eq_loop (ft : List (Nat × Nat)) (hlen2 : 2 ≤ ft.length) :
    build_huffman_tree_from_freqs ft =
      (buildLoopAux
        (ft.foldl (fun h q => heappush h (HNode.mk (some q.1) q.2 .null .null)) []).length
        (ft.foldl (fun h q => heappush h (HNode.mk (some q.1) q.2 .null .null)) [])).headD
        .null := by
  match ft, hlen2 with
  | p :: ft', hlen2 =>
    have hflen : ((p :: ft').foldl
        (fun h q => heappush h (HNode.mk (some q.1) q.2 .null .null)) []).length
        = (p :: ft').length := by
      rw [foldl_heappush_length]
      simp
    rw [build_huffman_tree_from_freqs]
    · show (if ((p :: ft').foldl
          (fun h q => heappush h (HNode.mk (some q.1) q.2 .null .null)) []).length = 1
        then _ else _) = _
      rw [if_neg (by rw [hflen]; omega)]
    · exact fun hcontr => List.noConfusion hcontr

theorem build_props (ft : List (Nat × Nat)) (hlen2 : 2 ≤ ft.length) :
    wfT (build_huffman_tree_from_freqs ft) = true ∧
    List.Perm (leafBytes (build_huffman_tree_from_freqs ft)) (ft.map Prod.fst) := by
  have hbuild := build_eq_loop ft hlen2
  set heap := ft.foldl (fun h q => heappush h (HNode.mk (some q.1) q.2 .null .null)) []
    with hheap
  have hflen : heap.length = ft.length := by rw [hheap, foldl_heappush_length]; simp
  have hfin_len : (buildLoopAux heap.length heap).length = 1 :=
    buildLoopAux_reaches heap.length heap (by omega) (by omega)
  obtain ⟨t0, hft0⟩ : ∃ t0, buildLoopAux heap.length heap = [t0] := by
    cases hfl : buildLoopAux heap.length heap with
    | nil => rw [hfl] at hfin_len; simp at hfin_len
    | cons a t =>
      rw [hfl] at hfin_len
      simp at hfin_len
      exact ⟨a, by rw [hfin_len]⟩
  have ht0 : build_huffman_tree_from_freqs ft = t0 := by rw [hbuild, hft0]; rfl
  constructor
  · rw [ht0]
    have hall : ∀ x ∈ buildLoopAux heap.length heap, wfT x = true := by
      refine buildLoopAux_inv (fun t => wfT t = true) ?_ heap.length heap ?_
      · intro f l r hl hr
        show (wfT l && wfT r) = true
        rw [hl, hr]
        rfl
      · refine foldl_heappush_all (fun t => wfT t = true) ?_ ft []
          (by intro x hx; simp at hx)
        intro b f
        rfl
    exact hall t0 (by rw [hft0]; exact List.mem_cons_self t0 [])
  · rw [ht0]
    have hb1 := buildLoopAux_bytes heap.length heap
    rw [hft0] at hb1
    have hb2 := foldl_heappush_bytes ft []
    rw [← hheap] at hb2
    have h4 : heapBytes [t0] = leafBytes t0 := by simp [heapBytes]
    rw [h4] at hb1
    refine hb1.trans ?_
    have h5 : heapBytes ([] : List HNode) = [] := rfl
    rw [h5, List.append_nil] at hb2
    exact hb2

/-! ## Code generation and the prefix property -/

theorem leafPaths_fst (t : HNode) : (leafPaths t).map Prod.fst = leafBytes t := by
  induction t with
  | null => rfl
  | mk bv f l r ihl ihr =>
    cases bv with
    | some v => rfl
    | none =>
      show ((leafPaths l).map (fun p => (p.1, 0 :: p.2)) ++
          (leafPaths r).map (fun p => (p.1, 1 :: p.2))).map Prod.fst
        = leafBytes l ++ leafBytes r
      rw [List.map_append, List.map_map, List.map_map]
      rw [show (Prod.fst ∘ fun p : Nat × List Nat => (p.1, 0 :: p.2)) = Prod.fst from rfl]
      rw [show (Prod.fst ∘ fun p : Nat × List Nat => (p.1, 1 :: p.2)) = Prod.fst from rfl]
      rw [ihl, ihr]

theorem isPrefixOf_cons_cons (a b : Nat) (as bs : List Nat) :
    (a :: as).isPrefixOf (b :: bs) = (a == b && as.isPrefixOf bs) := rfl

theorem leafPaths_prefix_free (t : HNode) (hnd : (leafBytes t).Nodup) :
    ∀ p1 ∈ leafPaths t, ∀ p2 ∈ leafPaths t, p1.1 ≠ p2.1 →
      p1.2.isPrefixOf p2.2 = false := by
  induction t with
  | null => intro p1 hp1; simp [leafPaths] at hp1
  | mk bv f l r ihl ihr =>
    cases bv with
    | some v =>
      intro p1 hp1 p2 hp2 hne
      simp [leafPaths] at hp1 hp2
      rw [hp1, hp2] at hne
      exact absurd rfl hne
    | none =>
      intro p1 hp1 p2 hp2 hne
      have hnd' : (leafBytes l ++ leafBytes r).Nodup := hnd
      rw [List.nodup_append] at hnd'
      have hp1' : p1 ∈ (leafPaths l).map (fun p => (p.1, 0 :: p.2)) ++
          (leafPaths r).map (fun p => (p.1, 1 :: p.2)) := hp1
      have hp2' : p2 ∈ (leafPaths l).map (fun p => (p.1, 0 :: p.2)) ++
          (leafPaths r).map (fun p => (p.1, 1 :: p.2)) := hp2
      rcases List.mem_append.mp hp1' with h1 | h1 <;>
        rcases List.mem_append.mp hp2' with h2 | h2
      · obtain ⟨q1, hq1, rfl⟩ := List.mem_map.mp h1
        obtain ⟨q2, hq2, rfl⟩ := List.mem_map.mp h2
        show (0 :: q1.2).isPrefixOf (0 :: q2.2) = false
        rw [isPrefixOf_cons_cons]
        simp only [beq_self_eq_true, Bool.true_and]
        exact ihl hnd'.1 q1 hq1 q2 hq2 hne
      · obtain ⟨q1, hq1, rfl⟩ := List.mem_map.mp h1
        obtain ⟨q2, hq2, rfl⟩ := List.mem_map.mp h2
        show (0 :: q1.2).isPrefixOf (1 :: q2.2) = false
        rw [isPrefixOf_cons_cons]
        rfl
      · obtain ⟨q1, hq1, rfl⟩ := List.mem_map.mp h1
        obtain ⟨q2, hq2, rfl⟩ := List.mem_map.mp h2
        show (1 :: q1.2).isPrefixOf (0 :: q2.2) = false
        rw [isPrefixOf_cons_cons]
        rfl
      · obtain ⟨q1, hq1, rfl⟩ := List.mem_map.mp h1
        obtain ⟨q2, hq2, rfl⟩ := List.mem_map.mp h2
        show (1 :: q1.2).isPrefixOf (1 :: q2.2) = false
        rw [isPrefixOf_cons_cons]
        simp only [beq_self_eq_true, Bool.true_and]
        exact ihr hnd'.2.1 q1 hq1 q2 hq2 hne

theorem traverseCodes_eq_foldl (t : HNode) :
    ∀ (bits : List Nat) (codes : List (List Nat)),
      traverseCodes t bits codes =
        (leafPaths t).foldl (fun cs p => cs.set p.1 (bits ++ p.2)) codes := by
  induction t with
  | null => intro bits codes; rfl
  | mk bv f l r ihl ihr =>
    intro bits codes
    cases bv with
    | some v => simp [traverseCodes, leafPaths]
    | none =>
      show traverseCodes r (bits ++ [1]) (traverseCodes l (bits ++ [0]) codes) = _
      rw [ihl, ihr]
      show _ = ((leafPaths l).map (fun p => (p.1, 0 :: p.2)) ++
          (leafPaths r).map (fun p => (p.1, 1 :: p.2))).foldl
          (fun cs p => cs.set p.1 (bits ++ p.2)) codes
      rw [List.foldl_append, List.foldl_map, List.foldl_map]
      have hf0 : (fun (cs : List (List Nat)) (q : Nat × List Nat) =>
          cs.set q.1 (bits ++ 0 :: q.2))
          = fun cs q => cs.set q.1 ((bits ++ [0]) ++ q.2) := by
        funext cs q
        rw [List.append_assoc]
        rfl
      have hf1 : (fun (cs : List (List Nat)) (q : Nat × List Nat) =>
          cs.set q.1 (bits ++ 1 :: q.2))
          = fun cs q => cs.set q.1 ((bits ++ [1]) ++ q.2) := by
        funext cs q
        rw [List.append_assoc]
        rfl
      rw [hf0, hf1]

theorem foldl_set_getD_not_mem (pairs : List (Nat × List Nat)) :
    ∀ (codes : List (List Nat)) (b : Nat), b ∉ pairs.map Prod.fst →
      (pairs.foldl (fun cs p => cs.set p.1 p.2) codes).getD b [] = codes.getD b [] := by
  induction pairs with
  | nil => intro codes b _; rfl
  | cons q rest ih =>
    intro codes b hb
    rw [List.map_cons, List.mem_cons] at hb
    push_neg at hb
    rw [List.foldl_cons, ih _ b hb.2]
    rw [List.getD_eq_getElem?_getD, List.getD_eq_getElem?_getD,
      List.getElem?_set_ne (by omega : q.1 ≠ b)]

theorem foldl_set_getD (pairs : List (Nat × List Nat)) :
    ∀ (codes : List (List Nat)) (b : Nat) (q : List Nat),
      (pairs.map Prod.fst).Nodup → (b, q) ∈ pairs → b < codes.length →
      (pairs.foldl (fun cs p => cs.set p.1 p.2) codes).getD b [] = q := by
  induction pairs with
  | nil => intro codes b q _ hmem; simp at hmem
  | cons hd rest ih =>
    intro codes b q hnd hmem hb
    rw [List.map_cons] at hnd
    obtain ⟨hnd1, hnd2⟩ := List.nodup_cons.mp hnd
    rw [List.foldl_cons]
    rcases List.mem_cons.mp hmem with heq | hmem'
    · subst heq
      rw [foldl_set_getD_not_mem rest _ b hnd1]
      rw [List.getD_eq_getElem?_getD, List.getElem?_set_eq_of_lt _ hb]
      rfl
    · refine ih _ b q hnd2 hmem' ?_
      simpa using hb

theorem generate_internal (bv : Option Nat) (f : Nat) (l r : HNode) (hl : isNull l = false) :
    generate_huffman_codes (HNode.mk bv f l r) =
      traverseCodes (HNode.mk bv f l r) [] (List.replicate 256 []) := by
  simp only [generate_huffman_codes]
  rw [if_neg (by simp [hl])]

/-! ## Claim C8 -/

/-- C8 counterexample: on the single-entry frequency table `{0: 1}` the
builder synthesizes an internal root whose only child is the left leaf, so
the tree has a node with exactly one child — the claim fails for this
nonempty table. -/
theorem C8_counterexample :
    noSingleChild (build_huffman_tree_from_freqs [(0, 1)]) = false := by
  decide

/-- C8 amended: for every frequency table with at least two entries the
Huffman tree built from it is a valid full binary tree — every internal
node has exactly two children and no node has exactly one child (the
single-entry table is the sole exception, its root having only a left
child). -/
theorem C8_amended_full_tree (ft : List (Nat × Nat)) (h2 : 2 ≤ ft.length) :
    noSingleChild (build_huffman_tree_from_freqs ft) = true :=
  wfT_noSingleChild _ (build_props ft h2).1

theorem C8_witness : noSingleChild (build_huffman_tree_from_freqs [(0, 1), (1, 2)]) = true :=
  C8_amended_full_tree [(0, 1), (1, 2)] (by decide)

/-! ## Claim C9 -/

/-- C9: for every frequency table with at least 2 distinct byte values
(below 256), the codes generated from the Huffman tree built from that
table form a prefix code: no byte's code is a prefix of a different byte's
code, for any two distinct bytes present in the table. -/
theorem C9_prefix_free (ft : List (Nat × Nat)) (hnd : (ft.map Prod.fst).Nodup)
    (h2 : 2 ≤ ft.length) (hlt : ∀ p ∈ ft, p.1 < 256)
    (b1 b2 : Nat) (hb1 : b1 ∈ ft.map Prod.fst) (hb2 : b2 ∈ ft.map Prod.fst)
    (hne : b1 ≠ b2) :
    ((generate_huffman_codes (build_huffman_tree_from_freqs ft)).getD b1 []).isPrefixOf
      ((generate_huffman_codes (build_huffman_tree_from_freqs ft)).getD b2 []) = false := by
  have hwf := (build_props ft h2).1
  have hbytes := (build_props ft h2).2
  cases ht : build_huffman_tree_from_freqs ft with
  | null => rw [ht] at hwf; simp [wfT] at hwf
  | mk bv f l r =>
    rw [ht] at hwf hbytes
    cases bv with
    | some v =>
      have hlen := hbytes.length_eq
      have h1 : (leafBytes (HNode.mk (some v) f l r)).length = 1 := rfl
      rw [h1, List.length_map] at hlen
      omega
    | none =>
      have hwf' : (wfT l && wfT r) = true := hwf
      rw [Bool.and_eq_true] at hwf'
      have hnl := wfT_not_null l hwf'.1
      have hgen := generate_internal none f l r hnl
      rw [hgen, traverseCodes_eq_foldl]
      have hfun : (fun (cs : List (List Nat)) (p : Nat × List Nat) => cs.set p.1 ([] ++ p.2))
          = fun cs p => cs.set p.1 p.2 := by
        funext cs p
        rw [List.nil_append]
      rw [hfun]
      have hndb : (leafBytes (HNode.mk none f l r)).Nodup := hbytes.nodup_iff.mpr hnd
      have hndp : ((leafPaths (HNode.mk none f l r)).map Prod.fst).Nodup := by
        rw [leafPaths_fst]
        exact hndb
      have hb1' : b1 ∈ leafBytes (HNode.mk none f l r) := hbytes.mem_iff.mpr hb1
      have hb2' : b2 ∈ leafBytes (HNode.mk none f l r) := hbytes.mem_iff.mpr hb2
      rw [← leafPaths_fst] at hb1' hb2'
      obtain ⟨p1, hp1, hp1f⟩ := List.mem_map.mp hb1'
      obtain ⟨p2, hp2, hp2f⟩ := List.mem_map.mp hb2'
      have hlt1 : b1 < 256 := by
        obtain ⟨pp, hpp, hppf⟩ := List.mem_map.mp hb1
        have := hlt pp hpp
        omega
      have hlt2 : b2 < 256 := by
        obtain ⟨pp, hpp, hppf⟩ := List.mem_map.mp hb2
        have := hlt pp hpp
        omega
      have hp1e : (b1, p1.2) = p1 := by rw [← hp1f]
      have hp2e : (b2, p2.2) = p2 := by rw [← hp2f]
      have hg1 : ((leafPaths (HNode.mk none f l r)).foldl
          (fun cs p => cs.set p.1 p.2) (List.replicate 256 [])).getD b1 [] = p1.2 := by
        refine foldl_set_getD _ _ b1 p1.2 hndp ?_ (by rw [List.length_replicate]; omega)
        rw [hp1e]
        exact hp1
      have hg2 : ((leafPaths (HNode.mk none f l r)).foldl
          (fun cs p => cs.set p.1 p.2) (List.replicate 256 [])).getD b2 [] = p2.2 := by
        refine foldl_set_getD _ _ b2 p2.2 hndp ?_ (by rw [List.length_replicate]; omega)
        rw [hp2e]
        exact hp2
      rw [hg1, hg2]
      refine leafPaths_prefix_free _ hndb p1 hp1 p2 hp2 ?_
      rw [hp1f, hp2f]
      exact hne

theorem C9_witness :
    ((generate_huffman_codes (build_huffman_tree_from_freqs [(0, 1), (1, 2)])).getD 0
      []).isPrefixOf
      ((generate_huffman_codes (build_huffman_tree_from_freqs [(0, 1), (1, 2)])).getD 1 [])
      = false :=
  C9_prefix_free [(0, 1), (1, 2)] (by decide) (by decide) (by decide) 0 1 (by decide)
    (by decide) (by decide)
